import Mathlib

/-!
Shallow embedding of the Adversa core (rules engine, artifact store,
run orchestrator) and proofs of the spec's testable properties.

Python strings are modelled as Lean `String`; Python string comparison
(by code point) is modelled by a lexicographic comparison on the
underlying character lists.  `fnmatch.fnmatch` is modelled by a fuelled
glob matcher supporting `*`, `?` and `[...]` character classes.
-/

namespace Adversa

/-- Python code-point comparison of two strings, on character lists. -/
def lexLe : List Char → List Char → Bool
  | [], _ => true
  | _ :: _, [] => false
  | a :: as, b :: bs => if a = b then lexLe as bs else decide (a < b)

/-- Embedding of `str.lower()` restricted to ASCII, as Lean's `Char.toLower`. -/
def strLower (s : String) : String := ⟨s.data.map Char.toLower⟩

/-- Embedding of `str.upper()` restricted to ASCII, as Lean's `Char.toUpper`. -/
def strUpper (s : String) : String := ⟨s.data.map Char.toUpper⟩

/-- One member of an fnmatch character class: a literal or a range. -/
inductive ClassItem where
  | single : Char → ClassItem
  | range : Char → Char → ClassItem
deriving DecidableEq

/-- Split a class body at its closing `]`.  A `]` in first position
(immediately after `[` or `[!`) is a literal member, as in `fnmatch`. -/
def splitClassBody (l : List Char) (first : Bool) : Option (List Char × List Char) :=
  match l with
  | [] => none
  | c :: rest =>
    if c = ']' ∧ first = false then some ([], rest)
    else (splitClassBody rest false).map fun p => (c :: p.1, p.2)

theorem splitClassBody_length {l : List Char} {first : Bool} {body rest : List Char}
    (h : splitClassBody l first = some (body, rest)) : rest.length < l.length := by
  induction l generalizing first body rest with
  | nil => simp [splitClassBody] at h
  | cons c cs ih =>
    simp only [splitClassBody] at h
    split at h
    · simp only [Option.some.injEq, Prod.mk.injEq] at h
      simp [← h.2]
    · cases hs : splitClassBody cs false with
      | none => simp [hs] at h
      | some p =>
        obtain ⟨b', r'⟩ := p
        simp only [hs, Option.map, Option.some.injEq, Prod.mk.injEq] at h
        have := ih hs
        simp only [← h.2]
        exact Nat.lt_trans this (Nat.lt_succ_self _)

/-- Parse class members into literals and ranges (`a-b`). -/
def parseItems : List Char → List ClassItem
  | [] => []
  | a :: '-' :: b :: rest => .range a b :: parseItems rest
  | a :: rest => .single a :: parseItems rest

/-- Whether character `c` belongs to a parsed class member. -/
def matchItem (c : Char) : ClassItem → Bool
  | .single a => a = c
  | .range a b => decide (a ≤ c) && decide (c ≤ b)

/-- Fuelled core of the glob matcher: pattern characters against
subject characters.  Fuel strictly exceeds the combined length, so the
`0` case is unreachable on the wrapper's inputs. -/
def globAux : Nat → List Char → List Char → Bool
  | 0, _, _ => false
  | fuel + 1, p, s =>
    match p, s with
    | [], [] => true
    | [], _ :: _ => false
    | '*' :: ps, [] => globAux fuel ps []
    | '*' :: ps, _ :: cs => globAux fuel ps s || globAux fuel ('*' :: ps) cs
    | '?' :: ps, _ :: cs => globAux fuel ps cs
    | '?' :: _, [] => false
    | '[' :: ps, s =>
      let negated := ps.head? = some '!'
      let body := if negated then ps.tail else ps
      match splitClassBody body true with
      | some (cls, rest) =>
        match s with
        | [] => false
        | c :: cs =>
          let inside := (parseItems cls).any (matchItem c)
          (if negated then !inside else inside) && globAux fuel rest cs
      | none =>
        match s with
        | c :: cs => decide (c = '[') && globAux fuel ps cs
        | [] => false
    | p0 :: ps, c :: cs => decide (p0 = c) && globAux fuel ps cs
    | _ :: _, [] => false

/-- Embedding of `fnmatch.fnmatch(name, pat)` (POSIX `normcase` is the identity). -/
def fnmatch (name : String) (pat : String) : Bool :=
  globAux (pat.data.length + name.data.length + 1) pat.data name.data

/-- Embedding of `CompiledRule` from `adversa/security/rule_compiler.py`. -/
structure CompiledRule where
  action : String
  target_type : String
  target : String
  phases : List String := []
  description : Option String := none
deriving DecidableEq

/-- Embedding of `AnalyzerSpec` from `adversa/security/rules.py`. -/
structure AnalyzerSpec where
  name : String
  tags : List String
  surfaces : List String
  methods : List String := []
deriving DecidableEq

/-- Embedding of `AppliedRule` from `adversa/security/rules.py`. -/
structure AppliedRule where
  action : String
  target_type : String
  target : String
  description : Option String := none
deriving DecidableEq

/-- Embedding of `RuleDecision` from `adversa/security/rules.py`. -/
structure RuleDecision where
  selected_analyzers : List String
  applied_rules : List AppliedRule
  blocked_reason : Option String := none
deriving DecidableEq

/-- Embedding of `RuntimeBoundaryDecision` from `adversa/security/rules.py`. -/
structure RuntimeBoundaryDecision where
  applied_rules : List AppliedRule
  blocked_reason : Option String := none
  focus_score : Nat := 0
deriving DecidableEq

/-- Embedding of `RuntimeTarget` from `adversa/security/rules.py` (already normalized:
the claims quantify over targets directly, so `from_inputs` is not needed). -/
structure RuntimeTarget where
  phase : String
  host : String
  subdomain : String
  path : String
  repo_path : String
  method : Option String := none
deriving DecidableEq

/-- The static `PHASE_ANALYZERS` registry (`dict.get(phase, ())`). -/
def PHASE_ANALYZERS (phase : String) : List AnalyzerSpec :=
  if phase = "intake" then
    [⟨"scope_planner", ["planning", "scope"], ["host", "subdomain", "path"], []⟩,
     ⟨"repo_inventory", ["filesystem", "planning"], ["repo_path"], []⟩]
  else if phase = "prerecon" then
    [⟨"repo_inventory", ["filesystem", "planning"], ["repo_path"], []⟩,
     ⟨"baseline_metadata", ["metadata", "planning"], ["host", "subdomain", "path"], []⟩]
  else if phase = "recon" then
    [⟨"attack_surface_mapper", ["network", "discovery"], ["host", "subdomain", "path", "method"], []⟩,
     ⟨"auth_model_builder", ["auth", "modeling"], ["host", "path", "method"], []⟩,
     ⟨"data_flow_mapper", ["data-flow", "modeling"], ["path", "method"], []⟩]
  else if phase = "vuln" then
    [⟨"static_safe_checks", ["safe", "code"], ["repo_path", "path", "method"], []⟩,
     ⟨"dependency_review", ["dependencies", "safe"], ["repo_path"], []⟩,
     ⟨"config_review", ["configuration", "safe"], ["repo_path", "path"], []⟩]
  else if phase = "report" then
    [⟨"finding_summarizer", ["reporting", "summary"], ["host", "path", "repo_path"], []⟩,
     ⟨"retest_planner", ["reporting", "planning"], ["host", "path", "repo_path", "method"], []⟩]
  else []

/-- Embedding of `HARD_BLOCK_TARGET_TYPES` from `adversa/security/rules.py`. -/
def HARD_BLOCK_TARGET_TYPES : List String := ["phase", "host", "subdomain", "repo_path"]

/-- Embedding of `_phase_applies`: empty scope means all phases. -/
def phase_applies (rule : CompiledRule) (phase : String) : Bool :=
  rule.phases.isEmpty || rule.phases.contains phase

/-- Embedding of `_matches_runtime_target` from `adversa/security/rules.py`. -/
def matches_runtime_target (rule : CompiledRule) (target : RuntimeTarget) : Bool :=
  if rule.target_type = "phase" then rule.target = target.phase
  else if rule.target_type = "host" then fnmatch target.host (strLower rule.target)
  else if rule.target_type = "subdomain" then fnmatch target.subdomain (strLower rule.target)
  else if rule.target_type = "path" then fnmatch target.path rule.target
  else if rule.target_type = "repo_path" then fnmatch target.repo_path rule.target
  else if rule.target_type = "method" then
    match target.method with
    | none => false
    | some m => fnmatch m (strUpper rule.target)
  else false

/-- Embedding of `_blocked_reason` from `adversa/security/rules.py`. -/
def blocked_reason_of (rule : CompiledRule) (target : RuntimeTarget) : String :=
  let boundary :=
    if rule.target_type = "phase" then target.phase
    else if rule.target_type = "host" then target.host
    else if rule.target_type = "subdomain" then target.subdomain
    else if rule.target_type = "path" then target.path
    else if rule.target_type = "repo_path" then target.repo_path
    else if rule.target_type = "method" then target.method.getD ""
    else rule.target
  match rule.description with
  | some d =>
    "Phase '" ++ target.phase ++ "' blocked by avoid rule '" ++ d ++ "' on "
      ++ rule.target_type ++ " '" ++ boundary ++ "'."
  | none =>
    "Phase '" ++ target.phase ++ "' blocked by avoid rule '" ++ rule.target ++ "' on "
      ++ rule.target_type ++ "."

/-- Embedding of `_to_applied_rule`. -/
def to_applied_rule (rule : CompiledRule) : AppliedRule :=
  ⟨rule.action, rule.target_type, rule.target, rule.description⟩

/-- The seen-set loop of `_dedupe_rules`; the dedup key
`(action, target_type, target, description)` is the whole record. -/
def dedupeGo (seen : List AppliedRule) : List AppliedRule → List AppliedRule
  | [] => []
  | r :: rest => if r ∈ seen then dedupeGo seen rest else r :: dedupeGo (r :: seen) rest

/-- Embedding of `_dedupe_rules` from `adversa/security/rules.py`. -/
def dedupe_rules (rules : List AppliedRule) : List AppliedRule := dedupeGo [] rules

/-- The hard-block scan of `evaluate_rules`: first rule that is
phase-scoped, `avoid`, of a hard-block target type, and matches. -/
def hard_block_rule (target : RuntimeTarget) (rules : List CompiledRule) : Option CompiledRule :=
  rules.find? fun rule =>
    phase_applies rule target.phase && rule.action = "avoid"
      && HARD_BLOCK_TARGET_TYPES.contains rule.target_type
      && matches_runtime_target rule target

/-- One branch of `_is_avoided`'s inner test (without the action/phase guard). -/
def avoid_hits (analyzer : AnalyzerSpec) (target : RuntimeTarget) (rule : CompiledRule) : Bool :=
  (rule.target_type = "analyzer" && rule.target = analyzer.name)
    || (rule.target_type = "tag" && analyzer.tags.contains rule.target)
    || (analyzer.surfaces.contains rule.target_type && matches_runtime_target rule target)

/-- Embedding of `_is_avoided` returns true at the first phase-scoped `avoid` rule that
hits the analyzer; that rule is also the one appended to `applied_rules`. -/
def avoiding_rule (analyzer : AnalyzerSpec) (target : RuntimeTarget)
    (rules : List CompiledRule) : Option CompiledRule :=
  rules.find? fun rule =>
    rule.action = "avoid" && phase_applies rule target.phase && avoid_hits analyzer target rule

/-- Embedding of `_is_avoided` from `adversa/security/rules.py`. -/
def is_avoided (analyzer : AnalyzerSpec) (target : RuntimeTarget)
    (rules : List CompiledRule) : Bool :=
  (avoiding_rule analyzer target rules).isSome

/-- The per-rule contribution inside `_focus_score`'s `elif` chain. -/
def focus_contribution (analyzer : AnalyzerSpec) (target : RuntimeTarget)
    (rule : CompiledRule) : Nat :=
  if rule.target_type = "analyzer" && rule.target = analyzer.name then 2
  else if rule.target_type = "tag" && analyzer.tags.contains rule.target then 2
  else if analyzer.surfaces.contains rule.target_type && matches_runtime_target rule target then 1
  else 0

/-- Embedding of `_focus_score` from `adversa/security/rules.py`. -/
def focus_score (analyzer : AnalyzerSpec) (target : RuntimeTarget)
    (rules : List CompiledRule) : Nat :=
  (rules.filter fun rule => rule.action = "focus" && phase_applies rule target.phase).foldl
    (fun s rule => s + focus_contribution analyzer target rule) 0

/-- The focus rules `_focus_score` appends to `applied_rules` for one
analyzer, in rule order (exactly those with a non-zero contribution). -/
def focus_matches (analyzer : AnalyzerSpec) (target : RuntimeTarget)
    (rules : List CompiledRule) : List CompiledRule :=
  rules.filter fun rule =>
    rule.action = "focus" && phase_applies rule target.phase
      && focus_contribution analyzer target rule != 0

/-- The sort key `(-score, name)` of `evaluate_rules`, as a relation:
higher score first, ties by code-point-ascending name. -/
def rank_le (score : AnalyzerSpec → Nat) (a b : AnalyzerSpec) : Prop :=
  score b < score a ∨ (score a = score b ∧ lexLe a.name.data b.name.data = true)

instance (score : AnalyzerSpec → Nat) : DecidableRel (rank_le score) := fun _ _ => by
  unfold rank_le; infer_instance

/-- Embedding of `evaluate_rules` from `adversa/security/rules.py`.  Python's `sorted`
is a stable sort by the key `(-score, name)`; it is modelled by the
stable `List.insertionSort` over the same total preorder. -/
def evaluate_rules (target : RuntimeTarget) (rules : List CompiledRule) : RuleDecision :=
  let analyzers := PHASE_ANALYZERS target.phase
  match hard_block_rule target rules with
  | some rule =>
    { selected_analyzers := []
      applied_rules := dedupe_rules [to_applied_rule rule]
      blocked_reason := some (blocked_reason_of rule target) }
  | none =>
    let remaining := analyzers.filter fun analyzer => !is_avoided analyzer target rules
    let avoidApplied := analyzers.filterMap fun analyzer =>
      (avoiding_rule analyzer target rules).map to_applied_rule
    let focusApplied := (remaining.map fun analyzer =>
      (focus_matches analyzer target rules).map to_applied_rule).flatten
    let ordered := List.insertionSort (rank_le fun a => focus_score a target rules) remaining
    { selected_analyzers := ordered.map (·.name)
      applied_rules := dedupe_rules (avoidApplied ++ focusApplied)
      blocked_reason := none }

/-- The loop of `evaluate_runtime_boundary`, with the running score and
`applied_rules` accumulator made explicit. -/
def boundaryGo (target : RuntimeTarget) (score : Nat) (applied : List AppliedRule) :
    List CompiledRule → RuntimeBoundaryDecision
  | [] => ⟨dedupe_rules applied, none, score⟩
  | rule :: rest =>
    if ¬ (phase_applies rule target.phase = true) then boundaryGo target score applied rest
    else if ¬ (matches_runtime_target rule target = true) then boundaryGo target score applied rest
    else if rule.action = "avoid" then
      ⟨dedupe_rules (applied ++ [to_applied_rule rule]),
        some (blocked_reason_of rule target), score⟩
    else if rule.action = "focus" then
      boundaryGo target (score + 1) (applied ++ [to_applied_rule rule]) rest
    else boundaryGo target score applied rest

/-- Embedding of `evaluate_runtime_boundary` from `adversa/security/rules.py`. -/
def evaluate_runtime_boundary (target : RuntimeTarget)
    (rules : List CompiledRule) : RuntimeBoundaryDecision :=
  boundaryGo target 0 [] rules

theorem lexLe_refl (as : List Char) : lexLe as as = true := by
  induction as with
  | nil => rfl
  | cons a tl ih => simp [lexLe, ih]

theorem lexLe_total (as bs : List Char) : lexLe as bs = true ∨ lexLe bs as = true := by
  induction as generalizing bs with
  | nil => left; rfl
  | cons a tl ih =>
    cases bs with
    | nil => right; rfl
    | cons b bs' =>
      by_cases hab : a = b
      · subst hab
        rcases ih bs' with h | h
        · left; simpa [lexLe] using h
        · right; simpa [lexLe] using h
      · rcases lt_or_gt_of_ne hab with h | h
        · left; simp [lexLe, hab, h]
        · right; simp [lexLe, Ne.symm hab, h]

theorem lexLe_trans {as bs cs : List Char}
    (h1 : lexLe as bs = true) (h2 : lexLe bs cs = true) : lexLe as cs = true := by
  induction as generalizing bs cs with
  | nil => rfl
  | cons a tl ih =>
    cases bs with
    | nil => simp [lexLe] at h1
    | cons b bs' =>
      cases cs with
      | nil => simp [lexLe] at h2
      | cons c cs' =>
        by_cases hab : a = b <;> by_cases hbc : b = c
        · subst hab; subst hbc
          simp only [lexLe, if_pos rfl] at h1 h2 ⊢
          exact ih h1 h2
        · subst hab
          simp only [lexLe, if_pos rfl, if_neg hbc] at h2 ⊢
          simp [h2]
        · subst hbc
          simp only [lexLe, if_pos rfl, if_neg hab] at h1 ⊢
          simp [h1]
        · simp only [lexLe, if_neg hab, if_neg hbc, decide_eq_true_eq] at h1 h2
          have hac : a < c := lt_trans h1 h2
          simp [lexLe, ne_of_lt hac, hac]

theorem append_ne_empty (s t : String) (h : s ≠ "") : s ++ t ≠ "" := by
  intro he
  apply h
  have hd : s.data ++ t.data = ([] : List Char) := by
    rw [← String.data_append s t, he]
  rw [List.append_eq_nil] at hd
  obtain ⟨sd⟩ := s
  simp only at hd
  simp [hd.1]

theorem blocked_reason_of_ne_empty (rule : CompiledRule) (target : RuntimeTarget) :
    blocked_reason_of rule target ≠ "" := by
  unfold blocked_reason_of
  cases rule.description with
  | none =>
    simp only
    repeat' refine append_ne_empty _ _ ?_
    decide
  | some d =>
    simp only
    repeat' refine append_ne_empty _ _ ?_
    decide

theorem mem_dedupeGo (l : List AppliedRule) :
    ∀ (seen : List AppliedRule) (x : AppliedRule),
      x ∈ dedupeGo seen l ↔ (x ∈ l ∧ x ∉ seen) := by
  induction l with
  | nil => intro seen x; simp [dedupeGo]
  | cons r rest ih =>
    intro seen x
    by_cases hr : r ∈ seen <;> by_cases hxr : x = r
    · subst hxr
      simp [dedupeGo, if_pos hr, ih, hr]
    · simp [dedupeGo, if_pos hr, ih, hxr]
    · subst hxr
      simp [dedupeGo, if_neg hr, hr]
    · simp only [dedupeGo, if_neg hr, List.mem_cons, ih, List.mem_cons]
      constructor
      · rintro (rfl | ⟨hx, hs⟩)
        · exact absurd rfl hxr
        · exact ⟨Or.inr hx, fun hm => hs (Or.inr hm)⟩
      · rintro ⟨rfl | hx, hs⟩
        · exact absurd rfl hxr
        · exact Or.inr ⟨hx, fun hm => by rcases hm with rfl | hm; exact hxr rfl; exact hs hm⟩

theorem mem_dedupe_rules (l : List AppliedRule) (x : AppliedRule) :
    x ∈ dedupe_rules l ↔ x ∈ l := by
  simp [dedupe_rules, mem_dedupeGo]

/-- C1: a phase-scoped `avoid` rule on a hard-block target type
(`phase`, `host`, `subdomain`, `repo_path`) that matches the target makes
`evaluate_rules` return no analyzers and a non-empty blocked reason, and a
non-`None` blocked reason can only be caused by such a rule — in
particular never by an `avoid` rule on `path` or `method`. -/
theorem evaluate_rules_hard_block (target : RuntimeTarget) (rules : List CompiledRule) :
    ((∃ r ∈ rules, phase_applies r target.phase = true ∧ r.action = "avoid" ∧
        r.target_type ∈ HARD_BLOCK_TARGET_TYPES ∧ matches_runtime_target r target = true) →
      (evaluate_rules target rules).selected_analyzers = [] ∧
        ∃ s, (evaluate_rules target rules).blocked_reason = some s ∧ s ≠ "") ∧
    ((evaluate_rules target rules).blocked_reason ≠ none →
      ∃ r ∈ rules, phase_applies r target.phase = true ∧ r.action = "avoid" ∧
        r.target_type ∈ HARD_BLOCK_TARGET_TYPES ∧ r.target_type ≠ "path" ∧
        r.target_type ≠ "method" ∧ matches_runtime_target r target = true) := by
  constructor
  · intro h
    obtain ⟨r, hr, hph, hact, hty, hm⟩ := h
    have hsome : (hard_block_rule target rules).isSome = true := by
      rw [hard_block_rule, List.find?_isSome]
      refine ⟨r, hr, ?_⟩
      simp [hph, hact, hm, hty]
    cases heq : hard_block_rule target rules with
    | none => rw [heq] at hsome; simp at hsome
    | some rb =>
      refine ⟨?_, blocked_reason_of rb target, ?_, blocked_reason_of_ne_empty rb target⟩
      · simp [evaluate_rules, heq]
      · simp [evaluate_rules, heq]
  · intro hb
    cases heq : hard_block_rule target rules with
    | none =>
      exfalso
      apply hb
      simp [evaluate_rules, heq]
    | some r =>
      have hmem : r ∈ rules := List.mem_of_find?_eq_some heq
      have hp := List.find?_some heq
      simp only [Bool.and_eq_true, decide_eq_true_eq] at hp
      obtain ⟨⟨⟨hph, hact⟩, hcont⟩, hm⟩ := hp
      have hty : r.target_type ∈ HARD_BLOCK_TARGET_TYPES := List.elem_iff.mp hcont
      have hty' : r.target_type = "phase" ∨ r.target_type = "host" ∨
          r.target_type = "subdomain" ∨ r.target_type = "repo_path" := by
        simpa [HARD_BLOCK_TARGET_TYPES] using hty
      refine ⟨r, hmem, hph, hact, hty, ?_, ?_, hm⟩
      · rcases hty' with h | h | h | h <;> simp [h]
      · rcases hty' with h | h | h | h <;> simp [h]

/-- Closed witness for the hypotheses of `evaluate_rules_hard_block`. -/
theorem evaluate_rules_hard_block_witness :
    (evaluate_rules ⟨"vuln", "www.example.com", "www", "/", "repo", none⟩
        [⟨"avoid", "host", "www.example.com", ["vuln"], none⟩]).selected_analyzers = [] ∧
      ∃ s, (evaluate_rules ⟨"vuln", "www.example.com", "www", "/", "repo", none⟩
        [⟨"avoid", "host", "www.example.com", ["vuln"], none⟩]).blocked_reason = some s ∧
          s ≠ "" :=
  (evaluate_rules_hard_block ⟨"vuln", "www.example.com", "www", "/", "repo", none⟩
    [⟨"avoid", "host", "www.example.com", ["vuln"], none⟩]).1 (by decide)

theorem matches_runtime_target_analyzer_tag (target : RuntimeTarget) (r : CompiledRule)
    (h : r.target_type = "analyzer" ∨ r.target_type = "tag") :
    matches_runtime_target r target = false := by
  rcases h with h | h <;> simp [matches_runtime_target, h]

theorem boundaryGo_filter_analyzer_tag (target : RuntimeTarget) :
    ∀ (rules : List CompiledRule) (score : Nat) (applied : List AppliedRule),
      boundaryGo target score applied rules =
        boundaryGo target score applied (rules.filter fun r =>
          !(decide (r.target_type = "analyzer") || decide (r.target_type = "tag"))) := by
  intro rules
  induction rules with
  | nil => intro score applied; rfl
  | cons r rest ih =>
    intro score applied
    by_cases hat : r.target_type = "analyzer" ∨ r.target_type = "tag"
    · have hm : matches_runtime_target r target = false :=
        matches_runtime_target_analyzer_tag target r hat
      have hat' : ¬(¬r.target_type = "analyzer" ∧ ¬r.target_type = "tag") := by tauto
      by_cases hph : phase_applies r target.phase = true
      · simp [boundaryGo, hph, hm, List.filter_cons, hat', ih]
      · simp [boundaryGo, hph, List.filter_cons, hat', ih]
    · push_neg at hat
      have hf : (decide (r.target_type = "analyzer") || decide (r.target_type = "tag")) = false := by
        simp [hat.1, hat.2]
      simp only [List.filter_cons, hf, Bool.not_false, if_pos rfl]
      unfold boundaryGo
      by_cases hph : phase_applies r target.phase = true
      · by_cases hm : matches_runtime_target r target = true
        · by_cases hav : r.action = "avoid"
          · simp [hph, hm, hav]
          · by_cases hfo : r.action = "focus" <;> simp [hph, hm, hav, hfo, ih]
        · simp [hph, hm, ih]
      · simp [hph, ih]

theorem boundaryGo_applied_not_analyzer_tag (target : RuntimeTarget) :
    ∀ (rules : List CompiledRule) (score : Nat) (applied : List AppliedRule),
      (∀ a ∈ applied, a.target_type ≠ "analyzer" ∧ a.target_type ≠ "tag") →
      ∀ a ∈ (boundaryGo target score applied rules).applied_rules,
        a.target_type ≠ "analyzer" ∧ a.target_type ≠ "tag" := by
  intro rules
  induction rules with
  | nil =>
    intro score applied hacc a ha
    rw [boundaryGo] at ha
    exact hacc a ((mem_dedupe_rules applied a).mp ha)
  | cons r rest ih =>
    intro score applied hacc a ha
    have hkeep : ∀ (hm : matches_runtime_target r target = true),
        ∀ b ∈ applied ++ [to_applied_rule r],
          b.target_type ≠ "analyzer" ∧ b.target_type ≠ "tag" := by
      intro hm b hb
      rcases List.mem_append.mp hb with hb | hb
      · exact hacc b hb
      · have hbr : b = to_applied_rule r := by simpa using hb
        subst hbr
        constructor <;> intro hEq
        · rw [matches_runtime_target_analyzer_tag target r (Or.inl hEq)] at hm
          exact Bool.false_ne_true hm
        · rw [matches_runtime_target_analyzer_tag target r (Or.inr hEq)] at hm
          exact Bool.false_ne_true hm
    rw [boundaryGo] at ha
    by_cases hph : phase_applies r target.phase = true
    · by_cases hm : matches_runtime_target r target = true
      · by_cases hav : r.action = "avoid"
        · simp only [hph, hm, hav, not_true, if_neg, if_pos] at ha
          simp only [if_false] at ha
          exact hkeep hm a ((mem_dedupe_rules _ a).mp ha)
        · by_cases hfo : r.action = "focus"
          · simp only [hph, hm, hav, hfo, not_true, if_neg, if_pos, if_false] at ha
            exact ih (score + 1) (applied ++ [to_applied_rule r]) (hkeep hm) a ha
          · simp only [hph, hm, hav, hfo, not_true, if_neg, if_pos, if_false] at ha
            exact ih score applied hacc a ha
      · simp only [hph, hm, not_true, not_false_iff, if_pos, if_neg] at ha
        exact ih score applied hacc a ha
    · simp only [hph, not_false_iff, if_pos] at ha
      exact ih score applied hacc a ha

/-- C10: a compiled rule whose `target_type` is `analyzer` or `tag` never
matches any runtime target in the shared matcher, so
`evaluate_runtime_boundary` behaves as if such rules were absent and its
decision never blocks on, scores, or records such a rule. -/
theorem boundary_ignores_analyzer_tag (target : RuntimeTarget) (rules : List CompiledRule) :
    (∀ r : CompiledRule, (r.target_type = "analyzer" ∨ r.target_type = "tag") →
      matches_runtime_target r target = false) ∧
    evaluate_runtime_boundary target rules =
      evaluate_runtime_boundary target (rules.filter fun r =>
        !(decide (r.target_type = "analyzer") || decide (r.target_type = "tag"))) ∧
    (∀ a ∈ (evaluate_runtime_boundary target rules).applied_rules,
      a.target_type ≠ "analyzer" ∧ a.target_type ≠ "tag") := by
  refine ⟨fun r => matches_runtime_target_analyzer_tag target r, ?_, ?_⟩
  · exact boundaryGo_filter_analyzer_tag target rules 0 []
  · exact boundaryGo_applied_not_analyzer_tag target rules 0 [] (by simp)

/-- Closed witness for the hypotheses of `boundary_ignores_analyzer_tag`:
an `avoid` rule typed `analyzer` does not block a tool call. -/
theorem boundary_ignores_analyzer_tag_witness :
    matches_runtime_target ⟨"avoid", "analyzer", "scope_planner", [], none⟩
        ⟨"intake", "h", "", "/", "repo", none⟩ = false ∧
      (evaluate_runtime_boundary ⟨"intake", "h", "", "/", "repo", none⟩
        [⟨"avoid", "analyzer", "scope_planner", [], none⟩]).blocked_reason = none :=
  ⟨(boundary_ignores_analyzer_tag ⟨"intake", "h", "", "/", "repo", none⟩
      [⟨"avoid", "analyzer", "scope_planner", [], none⟩]).1 _ (Or.inl rfl),
    by decide⟩

theorem boundaryGo_spec (target : RuntimeTarget) :
    ∀ (rules : List CompiledRule) (score : Nat) (applied : List AppliedRule),
      (boundaryGo target score applied rules).blocked_reason =
        ((rules.filter fun r => phase_applies r target.phase
            && matches_runtime_target r target).find? fun r => decide (r.action = "avoid")).map
          (fun r => blocked_reason_of r target) ∧
      (boundaryGo target score applied rules).focus_score =
        score + (((rules.filter fun r => phase_applies r target.phase
            && matches_runtime_target r target).takeWhile fun r => !decide (r.action = "avoid")).filter
          fun r => decide (r.action = "focus")).length ∧
      (boundaryGo target score applied rules).applied_rules =
        dedupe_rules (applied
          ++ (((rules.filter fun r => phase_applies r target.phase
              && matches_runtime_target r target).takeWhile fun r => !decide (r.action = "avoid")).filter
            fun r => decide (r.action = "focus")).map to_applied_rule
          ++ (((rules.filter fun r => phase_applies r target.phase
              && matches_runtime_target r target).find? fun r => decide (r.action = "avoid")).map
            to_applied_rule).toList) := by
  intro rules
  induction rules with
  | nil => intro score applied; refine ⟨rfl, by simp [boundaryGo], by simp [boundaryGo]⟩
  | cons r rest ih =>
    intro score applied
    by_cases hph : phase_applies r target.phase = true
    · by_cases hm : matches_runtime_target r target = true
      · by_cases hav : r.action = "avoid"
        · refine ⟨?_, ?_, ?_⟩ <;>
            simp [boundaryGo, hph, hm, hav, List.filter_cons, List.takeWhile, List.find?]
        · by_cases hfo : r.action = "focus"
          · obtain ⟨ihb, ihs, iha⟩ := ih (score + 1) (applied ++ [to_applied_rule r])
            refine ⟨?_, ?_, ?_⟩
            · simpa [boundaryGo, hph, hm, hav, hfo, List.filter_cons,
                List.find?] using ihb
            · rw [show boundaryGo target score applied (r :: rest) =
                boundaryGo target (score + 1) (applied ++ [to_applied_rule r]) rest by
                  simp [boundaryGo, hph, hm, hav, hfo]]
              rw [ihs]
              simp [List.filter_cons, hph, hm, List.takeWhile, hav, hfo]
              omega
            · rw [show boundaryGo target score applied (r :: rest) =
                boundaryGo target (score + 1) (applied ++ [to_applied_rule r]) rest by
                  simp [boundaryGo, hph, hm, hav, hfo]]
              rw [iha]
              simp [List.filter_cons, hph, hm, List.takeWhile, hav, hfo, List.find?]
          · obtain ⟨ihb, ihs, iha⟩ := ih score applied
            refine ⟨?_, ?_, ?_⟩
            · simpa [boundaryGo, hph, hm, hav, hfo, List.filter_cons, List.find?] using ihb
            · rw [show boundaryGo target score applied (r :: rest) =
                boundaryGo target score applied rest by
                  simp [boundaryGo, hph, hm, hav, hfo]]
              rw [ihs]
              simp [List.filter_cons, hph, hm, List.takeWhile, hav, hfo]
            · rw [show boundaryGo target score applied (r :: rest) =
                boundaryGo target score applied rest by
                  simp [boundaryGo, hph, hm, hav, hfo]]
              rw [iha]
              simp [List.filter_cons, hph, hm, List.takeWhile, hav, hfo, List.find?]
      · obtain ⟨ihb, ihs, iha⟩ := ih score applied
        have hstep : boundaryGo target score applied (r :: rest) =
            boundaryGo target score applied rest := by
          simp [boundaryGo, hph, hm]
        refine ⟨?_, ?_, ?_⟩ <;> rw [hstep] <;>
          simp [List.filter_cons, hph, hm, ihb, ihs, iha]
    · obtain ⟨ihb, ihs, iha⟩ := ih score applied
      have hstep : boundaryGo target score applied (r :: rest) =
          boundaryGo target score applied rest := by
        simp [boundaryGo, hph]
      refine ⟨?_, ?_, ?_⟩ <;> rw [hstep] <;>
        simp [List.filter_cons, hph, ihb, ihs, iha]

/-- C3: `evaluate_runtime_boundary` iterates rules in order; the first
phase-scoped matching `avoid` rule yields a non-empty blocked reason and
stops iteration; every phase-scoped matching `focus` rule before it adds
one to `focus_score` and is recorded in `applied_rules`; with no matching
`avoid` rule reached, `blocked_reason` is `none`. -/
theorem evaluate_runtime_boundary_spec (target : RuntimeTarget) (rules : List CompiledRule) :
    (evaluate_runtime_boundary target rules).blocked_reason =
      ((rules.filter fun r => phase_applies r target.phase
          && matches_runtime_target r target).find? fun r => decide (r.action = "avoid")).map
        (fun r => blocked_reason_of r target) ∧
    (∀ s, (evaluate_runtime_boundary target rules).blocked_reason = some s → s ≠ "") ∧
    (evaluate_runtime_boundary target rules).focus_score =
      (((rules.filter fun r => phase_applies r target.phase
          && matches_runtime_target r target).takeWhile fun r => !decide (r.action = "avoid")).filter
        fun r => decide (r.action = "focus")).length ∧
    ∀ r ∈ ((rules.filter fun r => phase_applies r target.phase
          && matches_runtime_target r target).takeWhile fun r => !decide (r.action = "avoid")).filter
        fun r => decide (r.action = "focus"),
      to_applied_rule r ∈ (evaluate_runtime_boundary target rules).applied_rules := by
  obtain ⟨hb, hs, ha⟩ := boundaryGo_spec target rules 0 []
  refine ⟨hb, ?_, by simpa using hs, ?_⟩
  · intro s hsome
    rw [evaluate_runtime_boundary] at hsome
    rw [hb] at hsome
    cases hfind : ((rules.filter fun r => phase_applies r target.phase
        && matches_runtime_target r target).find? fun r => decide (r.action = "avoid")) with
    | none => rw [hfind] at hsome; simp at hsome
    | some rb =>
      rw [hfind] at hsome
      simp only [Option.map, Option.some.injEq] at hsome
      rw [← hsome]
      exact blocked_reason_of_ne_empty rb target
  · intro r hr
    rw [show (evaluate_runtime_boundary target rules).applied_rules =
      (boundaryGo target 0 [] rules).applied_rules from rfl, ha]
    rw [mem_dedupe_rules]
    simp only [List.nil_append, List.mem_append]
    exact Or.inl (List.mem_map_of_mem to_applied_rule hr)

/-- Closed witness for the hypotheses of `evaluate_runtime_boundary_spec`. -/
theorem evaluate_runtime_boundary_spec_witness :
    ("Phase 'recon' blocked by avoid rule '/api/*' on path." : String) ≠ "" :=
  (evaluate_runtime_boundary_spec ⟨"recon", "h", "", "/api/users", "repo", none⟩
      [⟨"focus", "path", "/api/*", [], none⟩, ⟨"avoid", "path", "/api/*", [], none⟩]).2.1
    "Phase 'recon' blocked by avoid rule '/api/*' on path." (by decide)

/-- Spec-side per-rule test: a `focus` rule matching the analyzer's name. -/
def focus_name_rule (analyzer : AnalyzerSpec) (r : CompiledRule) : Bool :=
  r.target_type = "analyzer" && r.target = analyzer.name

/-- Spec-side per-rule test: a `focus` rule matching one of the analyzer's tags. -/
def focus_tag_rule (analyzer : AnalyzerSpec) (r : CompiledRule) : Bool :=
  r.target_type = "tag" && analyzer.tags.contains r.target

/-- Spec-side per-rule test: a rule on one of the analyzer's declared
surfaces that matches the runtime target. -/
def focus_surface_rule (analyzer : AnalyzerSpec) (target : RuntimeTarget)
    (r : CompiledRule) : Bool :=
  analyzer.surfaces.contains r.target_type && matches_runtime_target r target

/-- The scoring formula as the spec states it: over phase-scoped focus
rules, +2 per analyzer-name match, +2 per tag match, +1 per
runtime-surface match.  Stated from the spec's words, to be compared with
the code's `focus_score`. -/
def spec_focus_score (analyzer : AnalyzerSpec) (target : RuntimeTarget)
    (rules : List CompiledRule) : Nat :=
  2 * ((rules.filter fun r => focus_name_rule analyzer r
      && (r.action = "focus" && phase_applies r target.phase)).length)
    + 2 * ((rules.filter fun r => focus_tag_rule analyzer r
      && (r.action = "focus" && phase_applies r target.phase)).length)
    + ((rules.filter fun r => focus_surface_rule analyzer target r
      && (r.action = "focus" && phase_applies r target.phase)).length)

theorem foldl_add_map {α : Type} (f : α → Nat) :
    ∀ (l : List α) (a : Nat), l.foldl (fun s r => s + f r) a = a + (l.map f).sum := by
  intro l
  induction l with
  | nil => intro a; simp
  | cons r rest ih => intro a; simp [List.foldl_cons, ih]; omega

theorem focus_contribution_split (analyzer : AnalyzerSpec) (target : RuntimeTarget)
    (h1 : "analyzer" ∉ analyzer.surfaces) (h2 : "tag" ∉ analyzer.surfaces)
    (r : CompiledRule) :
    focus_contribution analyzer target r =
      2 * (if focus_name_rule analyzer r then 1 else 0)
        + 2 * (if focus_tag_rule analyzer r then 1 else 0)
        + (if focus_surface_rule analyzer target r then 1 else 0) := by
  by_cases hA : focus_name_rule analyzer r = true
  · have hty : r.target_type = "analyzer" := by
      have := hA
      simp only [focus_name_rule, Bool.and_eq_true, decide_eq_true_eq] at this
      exact this.1
    have hT : focus_tag_rule analyzer r = false := by
      simp [focus_tag_rule, hty]
    have hS : focus_surface_rule analyzer target r = false := by
      simp only [focus_surface_rule, hty, Bool.and_eq_false_iff]
      left
      simpa using fun hmem => h1 (List.elem_iff.mp hmem)
    have hA' := hA
    simp only [focus_name_rule, Bool.and_eq_true, decide_eq_true_eq] at hA'
    simp [focus_contribution, hA, hT, hS, hA'.1, hA'.2]
  · by_cases hT : focus_tag_rule analyzer r = true
    · have hty : r.target_type = "tag" := by
        have := hT
        simp only [focus_tag_rule, Bool.and_eq_true, decide_eq_true_eq] at this
        exact this.1
      have hS : focus_surface_rule analyzer target r = false := by
        simp only [focus_surface_rule, hty, Bool.and_eq_false_iff]
        left
        simpa using fun hmem => h2 (List.elem_iff.mp hmem)
      have hT' := hT
      simp only [focus_tag_rule, Bool.and_eq_true, decide_eq_true_eq] at hT'
      have hAfalse : ¬(r.target_type = "analyzer" ∧ r.target = analyzer.name) := by
        intro hc; rw [hc.1] at hty; exact absurd hty (by decide)
      simp only [focus_contribution, hA, hT, hS]
      rw [if_neg (by simpa [focus_name_rule] using hA)]
      rw [if_pos (by simp only [hT'.1]; simpa using List.elem_iff.mp hT'.2)]
      simp
    · by_cases hS : focus_surface_rule analyzer target r = true
      · have hS' := hS
        simp only [focus_surface_rule, Bool.and_eq_true] at hS'
        simp only [focus_contribution, hA, hT, hS]
        rw [if_neg (by simpa [focus_name_rule] using hA)]
        rw [if_neg (by simpa [focus_tag_rule] using hT)]
        rw [if_pos (by rw [Bool.and_eq_true]; exact hS')]
        simp
      · simp only [focus_contribution, hA, hT, hS]
        rw [if_neg (by simpa [focus_name_rule] using hA)]
        rw [if_neg (by simpa [focus_tag_rule] using hT)]
        rw [if_neg (by simpa [focus_surface_rule] using hS)]
        simp

theorem sum_indicator {α : Type} (p : α → Bool) :
    ∀ l : List α, (l.map fun r => if p r then (1 : Nat) else 0).sum = (l.filter p).length := by
  intro l
  induction l with
  | nil => simp
  | cons r rest ih =>
    by_cases hr : p r = true <;> simp [List.filter_cons, hr, ih, Nat.add_comm]

theorem focus_score_eq_spec (analyzer : AnalyzerSpec) (target : RuntimeTarget)
    (rules : List CompiledRule)
    (h1 : "analyzer" ∉ analyzer.surfaces) (h2 : "tag" ∉ analyzer.surfaces) :
    focus_score analyzer target rules = spec_focus_score analyzer target rules := by
  rw [focus_score, foldl_add_map, Nat.zero_add]
  have hsplit : ((rules.filter fun r => r.action = "focus" && phase_applies r target.phase).map
      (focus_contribution analyzer target)).sum =
      ((rules.filter fun r => r.action = "focus" && phase_applies r target.phase).map
        fun r => 2 * (if focus_name_rule analyzer r then (1 : Nat) else 0)
          + 2 * (if focus_tag_rule analyzer r then 1 else 0)
          + (if focus_surface_rule analyzer target r then 1 else 0)).sum := by
    congr 1
    exact List.map_congr_left fun r _ => focus_contribution_split analyzer target h1 h2 r
  rw [hsplit]
  have hsum : ∀ (l : List CompiledRule),
      (l.map fun r => 2 * (if focus_name_rule analyzer r then (1 : Nat) else 0)
          + 2 * (if focus_tag_rule analyzer r then 1 else 0)
          + (if focus_surface_rule analyzer target r then 1 else 0)).sum =
        2 * (l.filter (focus_name_rule analyzer)).length
          + 2 * (l.filter (focus_tag_rule analyzer)).length
          + (l.filter (focus_surface_rule analyzer target)).length := by
    intro l
    induction l with
    | nil => simp
    | cons r rest ih =>
      simp only [List.map_cons, List.sum_cons, ih, List.filter_cons]
      by_cases hA : focus_name_rule analyzer r = true <;>
        by_cases hT : focus_tag_rule analyzer r = true <;>
          by_cases hS : focus_surface_rule analyzer target r = true <;>
            simp [hA, hT, hS] <;> omega
  rw [hsum]
  rw [spec_focus_score]
  rw [List.filter_filter, List.filter_filter, List.filter_filter]

theorem analyzers_surfaces_sane (phase : String) (a : AnalyzerSpec)
    (ha : a ∈ PHASE_ANALYZERS phase) :
    "analyzer" ∉ a.surfaces ∧ "tag" ∉ a.surfaces := by
  unfold PHASE_ANALYZERS at ha
  repeat' split at ha
  all_goals fin_cases ha <;> decide

theorem rank_le_total (score : AnalyzerSpec → Nat) (a b : AnalyzerSpec) :
    rank_le score a b ∨ rank_le score b a := by
  rcases Nat.lt_trichotomy (score a) (score b) with h | h | h
  · right; left; exact h
  · rcases lexLe_total a.name.data b.name.data with hl | hl
    · left; right; exact ⟨h, hl⟩
    · right; right; exact ⟨h.symm, hl⟩
  · left; left; exact h

theorem rank_le_trans (score : AnalyzerSpec → Nat) (a b c : AnalyzerSpec)
    (hab : rank_le score a b) (hbc : rank_le score b c) : rank_le score a c := by
  rcases hab with hab | ⟨hab, hlab⟩
  · rcases hbc with hbc | ⟨hbc, _⟩
    · exact Or.inl (lt_trans hbc hab)
    · exact Or.inl (hbc ▸ hab)
  · rcases hbc with hbc | ⟨hbc, hlbc⟩
    · exact Or.inl (by omega)
    · exact Or.inr ⟨by omega, lexLe_trans hlab hlbc⟩

/-- C4: with no hard block, `focus_score` equals the spec's summed
formula on every analyzer of the phase, and `selected_analyzers` is the
non-avoided analyzers ordered by `(-score, name)` with ties broken by
name ascending. -/
theorem evaluate_rules_scoring (target : RuntimeTarget) (rules : List CompiledRule)
    (hnb : ∀ r ∈ rules, ¬(phase_applies r target.phase = true ∧ r.action = "avoid" ∧
      r.target_type ∈ HARD_BLOCK_TARGET_TYPES ∧ matches_runtime_target r target = true)) :
    (∀ a ∈ PHASE_ANALYZERS target.phase,
      focus_score a target rules = spec_focus_score a target rules) ∧
    ∃ ordered : List AnalyzerSpec,
      (evaluate_rules target rules).selected_analyzers = ordered.map (·.name) ∧
      ordered.Perm ((PHASE_ANALYZERS target.phase).filter
        fun a => !is_avoided a target rules) ∧
      ordered.Pairwise (rank_le fun a => spec_focus_score a target rules) := by
  have hscore : ∀ a ∈ PHASE_ANALYZERS target.phase,
      focus_score a target rules = spec_focus_score a target rules := by
    intro a ha
    obtain ⟨h1, h2⟩ := analyzers_surfaces_sane target.phase a ha
    exact focus_score_eq_spec a target rules h1 h2
  refine ⟨hscore, ?_⟩
  have hfind : hard_block_rule target rules = none := by
    rw [hard_block_rule, List.find?_eq_none]
    intro r hr
    intro hp
    simp only [Bool.and_eq_true, decide_eq_true_eq] at hp
    exact hnb r hr ⟨hp.1.1.1, hp.1.1.2, List.elem_iff.mp hp.1.2, hp.2⟩
  refine ⟨List.insertionSort (rank_le fun a => focus_score a target rules)
      ((PHASE_ANALYZERS target.phase).filter fun a => !is_avoided a target rules), ?_, ?_, ?_⟩
  · simp [evaluate_rules, hfind]
  · exact List.perm_insertionSort _ _
  · have hsorted : List.Pairwise (rank_le fun a => focus_score a target rules)
        (List.insertionSort (rank_le fun a => focus_score a target rules)
          ((PHASE_ANALYZERS target.phase).filter fun a => !is_avoided a target rules)) :=
      @List.sorted_insertionSort _ _ _ ⟨rank_le_total _⟩ ⟨rank_le_trans _⟩ _
    refine List.Pairwise.imp_of_mem ?_ hsorted
    intro a b ha hb hr
    have hmem : ∀ x, x ∈ (List.insertionSort (rank_le fun a => focus_score a target rules)
        ((PHASE_ANALYZERS target.phase).filter fun a => !is_avoided a target rules)) →
        x ∈ PHASE_ANALYZERS target.phase := by
      intro x hx
      have := (List.perm_insertionSort
        (rank_le fun a => focus_score a target rules)
        ((PHASE_ANALYZERS target.phase).filter fun a => !is_avoided a target rules)).mem_iff.mp hx
      exact (List.mem_filter.mp this).1
    have hsa := hscore a (hmem a ha)
    have hsb := hscore b (hmem b hb)
    rcases hr with hr | ⟨hr, hl⟩
    · left
      show spec_focus_score b target rules < spec_focus_score a target rules
      rw [← hsa, ← hsb]
      exact hr
    · right
      refine ⟨?_, hl⟩
      show spec_focus_score a target rules = spec_focus_score b target rules
      rw [← hsa, ← hsb]
      exact hr

/-- Closed witness for the hypotheses of `evaluate_rules_scoring`:
the spec's own worked example (a path-focused rule in `recon`). -/
theorem evaluate_rules_scoring_witness :
    focus_score
        ⟨"attack_surface_mapper", ["network", "discovery"], ["host", "subdomain", "path", "method"], []⟩
        ⟨"recon", "h", "", "/api/users", "repo", none⟩
        [⟨"focus", "path", "/api/*", [], none⟩]
      = spec_focus_score
        ⟨"attack_surface_mapper", ["network", "discovery"], ["host", "subdomain", "path", "method"], []⟩
        ⟨"recon", "h", "", "/api/users", "repo", none⟩
        [⟨"focus", "path", "/api/*", [], none⟩] :=
  (evaluate_rules_scoring ⟨"recon", "h", "", "/api/users", "repo", none⟩
      [⟨"focus", "path", "/api/*", [], none⟩] (by decide)).1
    ⟨"attack_surface_mapper", ["network", "discovery"], ["host", "subdomain", "path", "method"], []⟩
    (by decide)

/-- Embedding of `EvidenceRef` from `adversa/state/models.py`. -/
structure EvidenceRef where
  id : String
  path : String
  note : Option String := none
deriving DecidableEq

/-- Embedding of `PhaseOutput` from `adversa/state/models.py`; the `dict[str, Any]`
payload is modelled as a string association list. -/
structure PhaseOutput where
  phase : String
  generated_at : String
  summary : String
  evidence : List EvidenceRef := []
  data : List (String × String) := []
deriving DecidableEq

/-- Embedding of `validate_phase_output` from `adversa/state/schemas.py`: `parse`
models `json.loads` plus pydantic validation, whose failure is a raised
exception, modelled as `Except.error`; the `try/except` converts it to a
boolean. -/
def validate_phase_output (parse : String → Except String PhaseOutput)
    (content : String) : Bool :=
  match parse content with
  | .ok _ => true
  | .error _ => false

/-- Embedding of `ArtifactStore.should_skip_phase` from `adversa/artifacts/store.py`;
`fs` models the filesystem as a map from a run-relative path to the file
content if the file exists. -/
def should_skip_phase (fs : String → Option String)
    (parse : String → Except String PhaseOutput) (phase : String) (force : Bool) : Bool :=
  if force then false
  else
    match fs (phase ++ "/output.json") with
    | none => false
    | some content => validate_phase_output parse content

/-- C5: `should_skip_phase` is `false` whenever `force` is set, and
otherwise `true` exactly when `output.json` exists and parses into a
schema-valid `PhaseOutput`; parse/validation failures become the boolean
`false` (the function is total — nothing escapes the skip check). -/
theorem should_skip_phase_spec (fs : String → Option String)
    (parse : String → Except String PhaseOutput) (phase : String) :
    (∀ force, force = true → should_skip_phase fs parse phase force = false) ∧
    (should_skip_phase fs parse phase false = true ↔
      ∃ content, fs (phase ++ "/output.json") = some content ∧
        ∃ out, parse content = .ok out) := by
  constructor
  · intro force hf
    rw [hf]
    rfl
  · cases hfs : fs (phase ++ "/output.json") with
    | none => simp [should_skip_phase, hfs]
    | some content =>
      cases hp : parse content with
      | ok out => simp [should_skip_phase, hfs, validate_phase_output, hp]
      | error e => simp [should_skip_phase, hfs, validate_phase_output, hp]

/-- Closed witness for the hypotheses of `should_skip_phase_spec`:
`force=true` short-circuits, and an invalid `output.json` yields `false`. -/
theorem should_skip_phase_spec_witness :
    should_skip_phase (fun _ => some "output.json content missing required fields")
        (fun _ => .error "missing required fields") "intake" true = false ∧
      ¬ should_skip_phase (fun _ => some "output.json content missing required fields")
        (fun _ => .error "missing required fields") "intake" false = true :=
  ⟨(should_skip_phase_spec (fun _ => some "output.json content missing required fields")
      (fun _ => .error "missing required fields") "intake").1 true rfl,
    fun h => by
      obtain ⟨c, _, o, ho⟩ := (should_skip_phase_spec (fun _ => some "output.json content missing required fields")
        (fun _ => .error "missing required fields") "intake").2.mp h
      exact absurd ho (by simp)⟩

/-- Embedding of `ArtifactEntry` from `adversa/state/models.py`. -/
structure ArtifactEntry where
  path : String
  sha256 : String
deriving DecidableEq

/-- One Python-`dict` assignment `existing[rel] = entry`: overwriting an
existing key keeps its position, a new key is appended. -/
def upsertEntry (l : List ArtifactEntry) (e : ArtifactEntry) : List ArtifactEntry :=
  if l.any fun x => x.path = e.path then
    l.map fun x => if x.path = e.path then e else x
  else l ++ [e]

/-- Embedding of `ArtifactStore.append_index` from `adversa/artifacts/store.py`:
`files` is the current `index.files`, `paths` the run-relative paths to
append, and `hash` gives `_sha256` of the file currently at a path (so a
fixed `hash` states "unchanged file contents").  The dict comprehension,
the per-path assignments and the final `sorted(..., key=path)` are
modelled in order; Python's stable `sorted` over the path key is
`List.insertionSort` over the same total preorder. -/
def append_index (files : List ArtifactEntry) (paths : List String)
    (hash : String → String) : List ArtifactEntry :=
  let existing := files.foldl upsertEntry []
  let merged := paths.foldl (fun acc p => upsertEntry acc ⟨p, hash p⟩) existing
  List.insertionSort (fun a b => lexLe a.path.data b.path.data = true) merged

theorem upsertEntry_paths_of_mem (l : List ArtifactEntry) (e : ArtifactEntry)
    (h : l.any (fun x => x.path = e.path) = true) :
    (upsertEntry l e).map (·.path) = l.map (·.path) := by
  rw [upsertEntry, if_pos h, List.map_map]
  apply List.map_congr_left
  intro x _
  by_cases hx : x.path = e.path <;> simp [hx]

theorem upsertEntry_nodup (l : List ArtifactEntry) (e : ArtifactEntry)
    (h : (l.map (·.path)).Nodup) : ((upsertEntry l e).map (·.path)).Nodup := by
  by_cases hmem : l.any (fun x => x.path = e.path) = true
  · rw [upsertEntry_paths_of_mem l e hmem]
    exact h
  · rw [upsertEntry, if_neg hmem]
    rw [List.map_append]
    simp only [List.map_cons, List.map_nil]
    rw [List.nodup_append]
    refine ⟨h, List.nodup_singleton _, ?_⟩
    intro a ha hb
    simp only [List.mem_singleton] at hb
    subst hb
    obtain ⟨x, hx, hxe⟩ := List.mem_map.mp ha
    exact absurd (List.any_eq_true.mpr ⟨x, hx, by simp [hxe]⟩) hmem

theorem foldl_upsertEntry_nodup (l : List ArtifactEntry) :
    ∀ acc : List ArtifactEntry, ((acc.map (·.path)).Nodup) →
      (((l.foldl upsertEntry acc).map (·.path)).Nodup) := by
  induction l with
  | nil => intro acc h; exact h
  | cons e rest ih =>
    intro acc h
    exact ih (upsertEntry acc e) (upsertEntry_nodup acc e h)

theorem foldl_upsert_mk_nodup (hash : String → String) (ps : List String) :
    ∀ acc : List ArtifactEntry, ((acc.map (·.path)).Nodup) →
      (((ps.foldl (fun acc p => upsertEntry acc ⟨p, hash p⟩) acc).map (·.path)).Nodup) := by
  induction ps with
  | nil => intro acc h; exact h
  | cons p rest ih =>
    intro acc h
    exact ih (upsertEntry acc ⟨p, hash p⟩) (upsertEntry_nodup acc _ h)

theorem foldl_upsertEntry_of_nodup (l : List ArtifactEntry) :
    ∀ acc : List ArtifactEntry, (((acc ++ l).map (·.path)).Nodup) →
      l.foldl upsertEntry acc = acc ++ l := by
  induction l with
  | nil => intro acc _; simp
  | cons e rest ih =>
    intro acc h
    have hnot : ¬ acc.any (fun x => x.path = e.path) = true := by
      intro hany
      obtain ⟨x, hx, hxe⟩ := List.any_eq_true.mp hany
      simp only [decide_eq_true_eq] at hxe
      rw [List.map_append, List.nodup_append] at h
      refine h.2.2 (List.mem_map_of_mem _ hx) ?_
      rw [hxe]
      exact List.mem_map_of_mem _ (List.mem_cons_self e rest)
    have hstep : upsertEntry acc e = acc ++ [e] := by
      rw [upsertEntry, if_neg hnot]
    rw [List.foldl_cons, hstep, ih (acc ++ [e]) (by simpa using h)]
    simp

theorem mem_upsertEntry_preserve (acc : List ArtifactEntry) (x e : ArtifactEntry)
    (hx : x ∈ acc) (hkeep : x.path = e.path → x = e) : x ∈ upsertEntry acc e := by
  rw [upsertEntry]
  by_cases hany : acc.any (fun y => y.path = e.path) = true
  · rw [if_pos hany]
    by_cases hxe : x.path = e.path
    · have : x = e := hkeep hxe
      subst this
      exact List.mem_map.mpr ⟨x, hx, by simp [hxe]⟩
    · exact List.mem_map.mpr ⟨x, hx, by simp [hxe]⟩
  · rw [if_neg hany]
    exact List.mem_append_left _ hx

theorem mem_upsertEntry_self (acc : List ArtifactEntry) (e : ArtifactEntry) :
    e ∈ upsertEntry acc e := by
  rw [upsertEntry]
  by_cases hany : acc.any (fun y => y.path = e.path) = true
  · rw [if_pos hany]
    obtain ⟨x, hx, hxe⟩ := List.any_eq_true.mp hany
    simp only [decide_eq_true_eq] at hxe
    exact List.mem_map.mpr ⟨x, hx, by simp [hxe]⟩
  · rw [if_neg hany]
    exact List.mem_append_right _ (List.mem_singleton_self e)

theorem mem_foldl_upsert_keep (hash : String → String) (ps : List String) :
    ∀ (acc : List ArtifactEntry) (p : String), (⟨p, hash p⟩ : ArtifactEntry) ∈ acc →
      (⟨p, hash p⟩ : ArtifactEntry) ∈ ps.foldl (fun acc q => upsertEntry acc ⟨q, hash q⟩) acc := by
  induction ps with
  | nil => intro acc p hp; exact hp
  | cons q rest ih =>
    intro acc p hp
    rw [List.foldl_cons]
    refine ih _ p (mem_upsertEntry_preserve acc _ _ hp ?_)
    intro hpq
    simp only at hpq
    subst hpq
    rfl

theorem mem_foldl_upsert_mk (hash : String → String) (ps : List String) :
    ∀ (acc : List ArtifactEntry) (p : String), p ∈ ps →
      (⟨p, hash p⟩ : ArtifactEntry) ∈ ps.foldl (fun acc q => upsertEntry acc ⟨q, hash q⟩) acc := by
  induction ps with
  | nil => intro acc p hp; exact absurd hp (List.not_mem_nil p)
  | cons q rest ih =>
    intro acc p hp
    rcases List.mem_cons.mp hp with rfl | hp
    · rw [List.foldl_cons]
      exact mem_foldl_upsert_keep hash rest _ p (mem_upsertEntry_self acc _)
    · exact ih _ p hp

theorem eq_of_nodup_paths :
    ∀ {l : List ArtifactEntry}, ((l.map (·.path)).Nodup) →
      ∀ {x y : ArtifactEntry}, x ∈ l → y ∈ l → x.path = y.path → x = y := by
  intro l
  induction l with
  | nil => intro _ x y hx; exact absurd hx (List.not_mem_nil x)
  | cons a rest ih =>
    intro h x y hx hy hxy
    rw [List.map_cons, List.nodup_cons] at h
    rcases List.mem_cons.mp hx with rfl | hx'
    · rcases List.mem_cons.mp hy with rfl | hy'
      · rfl
      · exact absurd (by rw [hxy]; exact List.mem_map_of_mem (·.path) hy') h.1
    · rcases List.mem_cons.mp hy with rfl | hy'
      · exact absurd (by rw [← hxy]; exact List.mem_map_of_mem (·.path) hx') h.1
      · exact ih h.2 hx' hy' hxy

theorem foldl_upsert_mk_fixed (hash : String → String) (ps : List String) :
    ∀ acc : List ArtifactEntry, ((acc.map (·.path)).Nodup) →
      (∀ p ∈ ps, (⟨p, hash p⟩ : ArtifactEntry) ∈ acc) →
      ps.foldl (fun acc q => upsertEntry acc ⟨q, hash q⟩) acc = acc := by
  induction ps with
  | nil => intro acc _ _; rfl
  | cons q rest ih =>
    intro acc hnd hmem
    have hq : (⟨q, hash q⟩ : ArtifactEntry) ∈ acc := hmem q (List.mem_cons_self q rest)
    have hany : acc.any (fun y => y.path = (⟨q, hash q⟩ : ArtifactEntry).path) = true :=
      List.any_eq_true.mpr ⟨_, hq, by simp⟩
    have hstep : upsertEntry acc ⟨q, hash q⟩ = acc := by
      rw [upsertEntry, if_pos hany]
      have : ∀ x ∈ acc, (if x.path = (⟨q, hash q⟩ : ArtifactEntry).path
          then (⟨q, hash q⟩ : ArtifactEntry) else x) = x := by
        intro x hx
        by_cases hxq : x.path = (⟨q, hash q⟩ : ArtifactEntry).path
        · rw [if_pos hxq]
          exact (eq_of_nodup_paths hnd hx hq hxq).symm
        · rw [if_neg hxq]
      rw [List.map_congr_left this]
      simp
    rw [List.foldl_cons, hstep]
    exact ih acc hnd (fun p hp => hmem p (List.mem_cons_of_mem q hp))

/-- C6: re-running `append_index` over the same paths with unchanged file
contents rewrites the identical index (same entries, hence the same bytes
under any serialization), and after every `append_index` the index is
sorted by path with at most one entry per path. -/
theorem append_index_spec (files : List ArtifactEntry) (paths : List String)
    (hash : String → String) :
    append_index (append_index files paths hash) paths hash = append_index files paths hash ∧
    (∀ serialize : List ArtifactEntry → String,
      serialize (append_index (append_index files paths hash) paths hash) =
        serialize (append_index files paths hash)) ∧
    (append_index files paths hash).Pairwise
      (fun a b => lexLe a.path.data b.path.data = true) ∧
    ((append_index files paths hash).map (·.path)).Nodup := by
  have hmergedNodup : (((paths.foldl (fun acc p => upsertEntry acc ⟨p, hash p⟩)
      (files.foldl upsertEntry [])).map (·.path)).Nodup) :=
    foldl_upsert_mk_nodup hash paths _ (foldl_upsertEntry_nodup files [] (by simp))
  have hperm : (append_index files paths hash).Perm
      (paths.foldl (fun acc p => upsertEntry acc ⟨p, hash p⟩) (files.foldl upsertEntry [])) :=
    List.perm_insertionSort _ _
  have hnodup : ((append_index files paths hash).map (·.path)).Nodup :=
    ((hperm.map (·.path)).nodup_iff).mpr hmergedNodup
  have hsorted : (append_index files paths hash).Pairwise
      (fun a b => lexLe a.path.data b.path.data = true) :=
    @List.sorted_insertionSort ArtifactEntry
      (fun a b => lexLe a.path.data b.path.data = true) _
      ⟨fun a b => lexLe_total a.path.data b.path.data⟩
      ⟨fun _ _ _ hab hbc => lexLe_trans hab hbc⟩ _
  have hmem : ∀ p ∈ paths, (⟨p, hash p⟩ : ArtifactEntry) ∈ append_index files paths hash := by
    intro p hp
    exact hperm.mem_iff.mpr (mem_foldl_upsert_mk hash paths _ p hp)
  have hidem : append_index (append_index files paths hash) paths hash =
      append_index files paths hash := by
    rw [show append_index (append_index files paths hash) paths hash =
      List.insertionSort (fun a b => lexLe a.path.data b.path.data = true)
        (paths.foldl (fun acc p => upsertEntry acc ⟨p, hash p⟩)
          ((append_index files paths hash).foldl upsertEntry [])) from rfl]
    rw [foldl_upsertEntry_of_nodup (append_index files paths hash) [] (by simpa using hnodup)]
    rw [List.nil_append]
    rw [foldl_upsert_mk_fixed hash paths _ hnodup hmem]
    exact List.Sorted.insertionSort_eq hsorted
  exact ⟨hidem, fun serialize => by rw [hidem], hsorted, hnodup⟩

/-- Embedding of `WorkflowStatus` from `adversa/state/models.py` (pydantic defaults). -/
structure WorkflowStatus where
  current_phase : Option String := none
  completed_phases : List String := []
  artifact_index_path : Option String := none
  last_error : Option String := none
  waiting_reason : Option String := none
  waiting_for_config : Bool := false
  paused : Bool := false
  canceled : Bool := false
deriving DecidableEq

/-- Embedding of `PHASES` from `adversa/state/models.py`. -/
def PHASES : List String := ["intake", "prerecon", "recon", "vuln", "report"]

/-- Embedding of `WorkflowEngine.pause`. -/
def engine_pause (s : WorkflowStatus) : WorkflowStatus :=
  if s.canceled then s else { s with paused := true }

/-- Embedding of `WorkflowEngine.resume`. -/
def engine_resume (s : WorkflowStatus) : WorkflowStatus :=
  if s.canceled then s else { s with paused := false }

/-- Embedding of `WorkflowEngine.cancel`. -/
def engine_cancel (s : WorkflowStatus) : WorkflowStatus :=
  { s with canceled := true, paused := false, waiting_for_config := false,
           waiting_reason := none }

/-- Embedding of `WorkflowEngine.mark_waiting`. -/
def engine_mark_waiting (s : WorkflowStatus) (reason : String) : WorkflowStatus :=
  { s with waiting_for_config := true, waiting_reason := some reason, paused := false }

/-- Embedding of `WorkflowEngine.mark_config_updated`. -/
def engine_mark_config_updated (s : WorkflowStatus) : WorkflowStatus :=
  { s with waiting_for_config := false, waiting_reason := none, last_error := none }

/-- Embedding of `WorkflowEngine.start_phase`. -/
def engine_start_phase (s : WorkflowStatus) (phase : String) : WorkflowStatus :=
  { s with current_phase := some phase }

/-- Embedding of `WorkflowEngine.record_completion`. -/
def engine_record_completion (s : WorkflowStatus) (phase : String) : WorkflowStatus :=
  { s with current_phase := some phase,
           completed_phases :=
             if phase ∈ s.completed_phases then s.completed_phases
             else s.completed_phases ++ [phase],
           last_error := none }

/-- Whether `needle` occurs at the head of `hay`. -/
def isSubAt : List Char → List Char → Bool
  | [], _ => true
  | _ :: _, [] => false
  | n :: ns, h :: hs => n = h && isSubAt ns hs

/-- Python `needle in hay` for strings: contiguous substring test. -/
def containsSub (needle : List Char) : List Char → Bool
  | [] => needle.isEmpty
  | h :: hs => isSubAt needle (h :: hs) || containsSub needle hs

/-- A raised exception as the workflow sees it: `etype` is
`ApplicationError.type` when the exception is an `ApplicationError`,
`message` is `str(exc)`. -/
structure Exc where
  etype : Option String := none
  message : String := ""
deriving DecidableEq

/-- Embedding of `is_config_required_error` from `adversa/workflow_temporal/workflows.py`. -/
def is_config_required_error (e : Exc) : Bool :=
  match e.etype with
  | some t => t = "config_required"
  | none =>
    containsSub "config_required".data (strLower e.message).data
      || containsSub "missing env var".data (strLower e.message).data
      || containsSub "401".data (strLower e.message).data

/-- The four workflow signals. -/
inductive Signal where
  | pause
  | resume
  | cancel
  | update_config
deriving DecidableEq

/-- Where control sits inside `AdversaRunWorkflow.run`: at the top of the
inner `while` for phase `i`, in the pause-poll loop, awaiting the phase
activity, in the `wait_condition` suspension, returned, or failed with a
propagated exception. -/
inductive Control where
  | atPhase (i : Nat)
  | pauseLoop (i : Nat)
  | executing (i : Nat)
  | waiting (i : Nat)
  | finished
  | failed
deriving DecidableEq

/-- A workflow state: the queryable status, the `_update_config` flag,
and the control point. -/
structure WfState where
  status : WorkflowStatus
  updateConfig : Bool
  control : Control
deriving DecidableEq

/-- Embedding of `AdversaRunWorkflow` signal handlers (each is one `@workflow.signal`
method; `update_config` sets the flag, clears the wait, and resumes). -/
def apply_signal (s : WfState) : Signal → WfState
  | .pause => { s with status := engine_pause s.status }
  | .resume => { s with status := engine_resume s.status }
  | .cancel => { s with status := engine_cancel s.status }
  | .update_config =>
    { s with status := engine_resume (engine_mark_config_updated s.status),
             updateConfig := true }

/-- Advance of the `for phase in PHASES` loop after the inner `while`
finishes for phase `i`. -/
def nextControl (i : Nat) : Control :=
  if i + 1 < PHASES.length then .atPhase (i + 1) else .finished

/-- Small-step semantics of `AdversaRunWorkflow.run`.  Signals may be
delivered at any time; phase-activity outcomes (`result.get("status")`,
or a raised exception) are chosen by the environment.  A canceled run
skips every remaining loop body, which collapses to stepping straight to
`finished`. -/
inductive Step : WfState → WfState → Prop where
  | signal (s : WfState) (sig : Signal) : Step s (apply_signal s sig)
  | cancel_exit (s : WfState) (i : Nat) (h : s.control = .atPhase i)
      (hc : s.status.canceled = true) :
      Step s { s with control := .finished }
  | begin_phase (s : WfState) (i : Nat) (h : s.control = .atPhase i)
      (hc : s.status.canceled = false) :
      Step s { s with status := engine_start_phase s.status (PHASES.getD i ""),
                      control := .pauseLoop i }
  | pause_spin (s : WfState) (i : Nat) (h : s.control = .pauseLoop i)
      (hp : s.status.paused = true) (hc : s.status.canceled = false) :
      Step s s
  | pause_exit_cancel (s : WfState) (i : Nat) (h : s.control = .pauseLoop i)
      (hc : s.status.canceled = true) :
      Step s { s with control := .finished }
  | pause_exit_run (s : WfState) (i : Nat) (h : s.control = .pauseLoop i)
      (hp : s.status.paused = false) (hc : s.status.canceled = false) :
      Step s { s with control := .executing i }
  | activity_ok (s : WfState) (i : Nat) (st : String) (h : s.control = .executing i) :
      Step s { s with
        status := if st = "completed" ∨ st = "skipped"
          then engine_record_completion s.status (PHASES.getD i "") else s.status,
        control := nextControl i }
  | activity_config_err (s : WfState) (i : Nat) (e : Exc) (h : s.control = .executing i)
      (hcfg : is_config_required_error e = true) :
      Step s { s with status := engine_mark_waiting s.status "LLM provider config required",
                      control := .waiting i }
  | activity_fatal (s : WfState) (i : Nat) (e : Exc) (h : s.control = .executing i)
      (hcfg : is_config_required_error e = false) :
      Step s { s with status := { s.status with last_error := some e.message },
                      control := .failed }
  | wake (s : WfState) (i : Nat) (h : s.control = .waiting i)
      (hw : s.updateConfig = true ∨ s.status.canceled = true) :
      Step s { s with updateConfig := false, control := .atPhase i }
  | wait_timeout (s : WfState) (i : Nat) (h : s.control = .waiting i) :
      Step s { s with control := .failed }

/-- The state at the top of `run`, after `artifact_index_path` is set. -/
def initState (indexPath : String) : WfState :=
  { status := { artifact_index_path := some indexPath }
    updateConfig := false
    control := .atPhase 0 }

/-- The phase index a control point has reached (terminal points count as
past the last phase). -/
def ctlIdx : Control → Nat
  | .atPhase i => i
  | .pauseLoop i => i
  | .executing i => i
  | .waiting i => i
  | .finished => PHASES.length
  | .failed => PHASES.length

theorem apply_signal_control (s : WfState) (sig : Signal) :
    (apply_signal s sig).control = s.control := by
  cases sig <;> rfl

theorem apply_signal_updateConfig_pause (s : WfState) :
    (apply_signal s .pause).updateConfig = s.updateConfig := rfl

theorem engine_pause_completed (st : WorkflowStatus) :
    (engine_pause st).completed_phases = st.completed_phases := by
  rw [engine_pause]; split <;> rfl

theorem engine_resume_completed (st : WorkflowStatus) :
    (engine_resume st).completed_phases = st.completed_phases := by
  rw [engine_resume]; split <;> rfl

theorem apply_signal_completed (s : WfState) (sig : Signal) :
    (apply_signal s sig).status.completed_phases = s.status.completed_phases := by
  cases sig with
  | pause => exact engine_pause_completed s.status
  | resume => exact engine_resume_completed s.status
  | cancel => rfl
  | update_config =>
    show (engine_resume (engine_mark_config_updated s.status)).completed_phases = _
    rw [engine_resume_completed]
    rfl

theorem apply_signal_canceled (s : WfState) (sig : Signal)
    (hc : s.status.canceled = true) : (apply_signal s sig).status.canceled = true := by
  cases sig with
  | pause => show (engine_pause s.status).canceled = true; rw [engine_pause, if_pos hc]; exact hc
  | resume => show (engine_resume s.status).canceled = true; rw [engine_resume, if_pos hc]; exact hc
  | cancel => rfl
  | update_config =>
    show (engine_resume (engine_mark_config_updated s.status)).canceled = true
    have hmc : (engine_mark_config_updated s.status).canceled = true := hc
    rw [engine_resume, if_pos hmc]
    exact hmc

theorem step_canceled_preserved {s s' : WfState} (hstep : Step s s')
    (hc : s.status.canceled = true) : s'.status.canceled = true := by
  cases hstep with
  | signal sig => exact apply_signal_canceled _ sig hc
  | cancel_exit i h hcc => exact hc
  | begin_phase i h hcc => exact hc
  | pause_spin i h hp hcc => exact hc
  | pause_exit_cancel i h hcc => exact hc
  | pause_exit_run i h hp hcc => exact hc
  | activity_ok i st h =>
    show (if st = "completed" ∨ st = "skipped"
      then engine_record_completion _ (PHASES.getD i "") else _).canceled = true
    split <;> exact hc
  | activity_config_err i e h hcfg => exact hc
  | activity_fatal i e h hcfg => exact hc
  | wake i h hw => exact hc
  | wait_timeout i h => exact hc

theorem take_sublist_take {α : Type} (l : List α) {i j : Nat} (h : i ≤ j) :
    (l.take i).Sublist (l.take j) := by
  have := List.take_sublist i (l.take j)
  rwa [List.take_take, min_eq_left h] at this

/-- The phase index carried by a control point never exceeds the phase list. -/
def phaseBound : Control → Prop
  | .atPhase i => i < PHASES.length
  | .pauseLoop i => i < PHASES.length
  | .executing i => i < PHASES.length
  | .waiting i => i < PHASES.length
  | .finished => True
  | .failed => True

/-- Inductive invariant: the control index is in range and the completed
phases so far form a sub-list of the phases already reached. -/
def WfInv (s : WfState) : Prop :=
  phaseBound s.control ∧
    s.status.completed_phases.Sublist (PHASES.take (ctlIdx s.control))

theorem wfInv_init (indexPath : String) : WfInv (initState indexPath) :=
  ⟨(by decide : (0 : Nat) < PHASES.length), List.nil_sublist _⟩

theorem wfInv_step {s s' : WfState} (hstep : Step s s') (hinv : WfInv s) : WfInv s' := by
  obtain ⟨hb, hsub⟩ := hinv
  cases hstep with
  | signal sig =>
    refine ⟨by rw [apply_signal_control]; exact hb, ?_⟩
    rw [apply_signal_completed, apply_signal_control]
    exact hsub
  | cancel_exit i h hc =>
    refine ⟨trivial, ?_⟩
    refine hsub.trans (take_sublist_take PHASES ?_)
    rw [h] at hb
    rw [h]
    show _ ≤ PHASES.length
    exact Nat.le_of_lt hb
  | begin_phase i h hc =>
    rw [h] at hb hsub
    exact ⟨hb, hsub⟩
  | pause_spin i h hp hc => exact ⟨hb, hsub⟩
  | pause_exit_cancel i h hc =>
    refine ⟨trivial, ?_⟩
    refine hsub.trans (take_sublist_take PHASES ?_)
    rw [h] at hb
    rw [h]
    show _ ≤ PHASES.length
    exact Nat.le_of_lt hb
  | pause_exit_run i h hp hc =>
    rw [h] at hb hsub
    exact ⟨hb, hsub⟩
  | activity_ok i st h =>
    rw [h] at hb hsub
    have hnext : phaseBound (nextControl i) := by
      rw [nextControl]
      split
      · simpa using (by assumption : i + 1 < PHASES.length)
      · trivial
    have hidx : i + 1 ≤ ctlIdx (nextControl i) := by
      rw [nextControl]
      split
      · exact Nat.le_refl _
      · exact Nat.succ_le_of_lt hb
    refine ⟨hnext, ?_⟩
    have htake : PHASES.take (i + 1) = PHASES.take i ++ [PHASES.getD i ""] := by
      rw [List.take_succ]
      congr 1
      rw [List.getElem?_eq_getElem hb]
      rw [List.getD_eq_getElem?_getD, List.getElem?_eq_getElem hb]
      rfl
    have hstep' : (if PHASES.getD i "" ∈ s.status.completed_phases
        then s.status.completed_phases
        else s.status.completed_phases ++ [PHASES.getD i ""]).Sublist (PHASES.take (i + 1)) := by
      split
      · exact hsub.trans (take_sublist_take PHASES (Nat.le_succ i))
      · rw [htake]
        exact hsub.append (List.Sublist.refl _)
    show ((if st = "completed" ∨ st = "skipped"
        then engine_record_completion s.status (PHASES.getD i "")
        else s.status).completed_phases).Sublist (PHASES.take (ctlIdx (nextControl i)))
    split
    · exact hstep'.trans (take_sublist_take PHASES hidx)
    · exact (hsub.trans (take_sublist_take PHASES (Nat.le_succ i))).trans
        (take_sublist_take PHASES hidx)
  | activity_config_err i e h hcfg =>
    rw [h] at hb hsub
    exact ⟨hb, hsub⟩
  | activity_fatal i e h hcfg =>
    refine ⟨trivial, ?_⟩
    refine hsub.trans (take_sublist_take PHASES ?_)
    rw [h] at hb
    rw [h]
    show _ ≤ PHASES.length
    exact Nat.le_of_lt hb
  | wake i h hw =>
    rw [h] at hb hsub
    exact ⟨hb, hsub⟩
  | wait_timeout i h =>
    refine ⟨trivial, ?_⟩
    refine hsub.trans (take_sublist_take PHASES ?_)
    rw [h] at hb
    rw [h]
    show _ ≤ PHASES.length
    exact Nat.le_of_lt hb

theorem wfInv_reachable {indexPath : String} {s : WfState}
    (h : Relation.ReflTransGen Step (initState indexPath) s) : WfInv s := by
  induction h with
  | refl => exact wfInv_init indexPath
  | tail _ hstep ih => exact wfInv_step hstep ih

theorem PHASES_nodup : PHASES.Nodup := by decide

/-- C8: in every reachable orchestrator state, `completed_phases` is a
sub-list of the fixed phase sequence — a subset, listed in sequence
order, with no duplicates. -/
theorem completed_phases_invariant (indexPath : String) (s : WfState)
    (h : Relation.ReflTransGen Step (initState indexPath) s) :
    s.status.completed_phases.Sublist PHASES ∧ s.status.completed_phases.Nodup := by
  obtain ⟨_, hsub⟩ := wfInv_reachable h
  have hsub' : s.status.completed_phases.Sublist PHASES :=
    hsub.trans (List.take_sublist _ _)
  exact ⟨hsub', hsub'.nodup PHASES_nodup⟩

/-- Closed witness for the hypotheses of `completed_phases_invariant`. -/
theorem completed_phases_invariant_witness :
    (initState "w/r1/artifacts/index.json").status.completed_phases.Sublist PHASES ∧
      (initState "w/r1/artifacts/index.json").status.completed_phases.Nodup :=
  completed_phases_invariant "w/r1/artifacts/index.json" _ Relation.ReflTransGen.refl

theorem step_not_executing {s s' : WfState} (hstep : Step s s')
    (hc : s.status.canceled = true) (hne : ∀ j, s.control ≠ .executing j) :
    ∀ j, s'.control ≠ .executing j := by
  cases hstep with
  | signal sig => intro j; rw [apply_signal_control]; exact hne j
  | cancel_exit i h hcc => intro j hx; simp at hx
  | begin_phase i h hcc => simp [hcc] at hc
  | pause_spin i h hp hcc => simp [hcc] at hc
  | pause_exit_cancel i h hcc => intro j hx; simp at hx
  | pause_exit_run i h hp hcc => simp [hcc] at hc
  | activity_ok i st h => exact absurd h (hne i)
  | activity_config_err i e h hcfg => exact absurd h (hne i)
  | activity_fatal i e h hcfg => exact absurd h (hne i)
  | wake i h hw => intro j hx; simp at hx
  | wait_timeout i h => intro j hx; simp at hx

/-- C9: a pause signal followed by a resume signal leaves
`completed_phases` exactly as it was, and once a cancel signal has been
received while the run sits in the pause loop, no state reachable from
there ever starts another phase activity. -/
theorem pause_resume_cancel (s₀ : WfState) :
    ((apply_signal (apply_signal s₀ .pause) .resume).status.completed_phases
        = s₀.status.completed_phases) ∧
    (∀ (s' : WfState) (i : Nat), s₀.control = .pauseLoop i → s₀.status.canceled = true →
      Relation.ReflTransGen Step s₀ s' → ∀ j, s'.control ≠ .executing j) := by
  constructor
  · rw [apply_signal_completed, apply_signal_completed]
  · intro s' i hctl hc hreach
    have hstrong : s'.status.canceled = true ∧ ∀ j, s'.control ≠ .executing j := by
      induction hreach with
      | refl => exact ⟨hc, fun j hj => by rw [hctl] at hj; simp at hj⟩
      | tail hsteps hstep ih =>
        exact ⟨step_canceled_preserved hstep ih.1, step_not_executing hstep ih.1 ih.2⟩
    exact hstrong.2

/-- Closed witness for the hypotheses of `pause_resume_cancel`. -/
theorem pause_resume_cancel_witness :
    ((apply_signal (apply_signal
        (⟨⟨none, [], none, none, none, false, false, true⟩, false, .pauseLoop 0⟩ : WfState)
        .pause) .resume).status.completed_phases
      = (⟨⟨none, [], none, none, none, false, false, true⟩, false,
          .pauseLoop 0⟩ : WfState).status.completed_phases) ∧
    (⟨⟨none, [], none, none, none, false, false, true⟩, false,
        .pauseLoop 0⟩ : WfState).control ≠ .executing 0 :=
  ⟨(pause_resume_cancel _).1,
    (pause_resume_cancel
        (⟨⟨none, [], none, none, none, false, false, true⟩, false, .pauseLoop 0⟩ : WfState)).2
      _ 0 rfl rfl Relation.ReflTransGen.refl 0⟩

/-- C2: a phase activity failing with a config-required error puts the
workflow into `waiting_for_config = true` with a non-empty reason and an
unchanged `current_phase`; `update_config` clears the wait and sets the
wake flag; waking from the wait returns to the top of the same phase's
loop, and a phase activity can only start from its own pause loop — so
the same phase, not the next one, is attempted again. -/
theorem config_required_waits_and_retries :
    (∀ (s : WfState) (i : Nat) (e : Exc), s.control = .executing i →
      is_config_required_error e = true →
      Step s { s with status := engine_mark_waiting s.status "LLM provider config required",
                      control := .waiting i } ∧
      (engine_mark_waiting s.status "LLM provider config required").waiting_for_config = true ∧
      (∃ r, (engine_mark_waiting s.status "LLM provider config required").waiting_reason
          = some r ∧ r ≠ "") ∧
      (engine_mark_waiting s.status "LLM provider config required").current_phase
        = s.status.current_phase ∧
      (engine_mark_waiting s.status "LLM provider config required").completed_phases
        = s.status.completed_phases) ∧
    (∀ s : WfState,
      (apply_signal s .update_config).status.waiting_for_config = false ∧
      (apply_signal s .update_config).status.waiting_reason = none ∧
      (apply_signal s .update_config).updateConfig = true ∧
      (apply_signal s .update_config).control = s.control) ∧
    (∀ (s s' : WfState) (i : Nat), Step s s' → s.control = .waiting i →
      s'.control = .atPhase i ∨ s'.control = .waiting i ∨ s'.control = .failed) ∧
    (∀ (s s' : WfState) (j : Nat), Step s s' → s'.control = .executing j →
      s.control = .pauseLoop j ∨ s.control = .executing j) ∧
    (∀ (s s' : WfState) (i : Nat), Step s s' → s.control = .atPhase i →
      s'.control = .pauseLoop i ∨ s'.control = .atPhase i ∨ s'.control = .finished) ∧
    (∀ (s s' : WfState) (i : Nat), Step s s' → s.control = .pauseLoop i →
      s'.control = .pauseLoop i ∨ s'.control = .executing i ∨ s'.control = .finished) := by
  refine ⟨?_, ?_, ?_, ?_, ?_, ?_⟩
  · intro s i e h hcfg
    exact ⟨Step.activity_config_err s i e h hcfg, rfl, ⟨_, rfl, by decide⟩, rfl, rfl⟩
  · intro s
    refine ⟨?_, ?_, rfl, rfl⟩
    · show (engine_resume (engine_mark_config_updated s.status)).waiting_for_config = false
      rw [engine_resume]
      split <;> rfl
    · show (engine_resume (engine_mark_config_updated s.status)).waiting_reason = none
      rw [engine_resume]
      split <;> rfl
  · intro s s' i hstep hctl
    cases hstep with
    | signal sig => right; left; rw [apply_signal_control, hctl]
    | wake i0 h hw =>
      rw [hctl] at h
      injection h with hi
      subst hi
      left; rfl
    | wait_timeout i0 h => right; right; rfl
    | cancel_exit i0 h hc => rw [hctl] at h; simp at h
    | begin_phase i0 h hc => rw [hctl] at h; simp at h
    | pause_spin i0 h hp hc => rw [hctl] at h; simp at h
    | pause_exit_cancel i0 h hc => rw [hctl] at h; simp at h
    | pause_exit_run i0 h hp hc => rw [hctl] at h; simp at h
    | activity_ok i0 st h => rw [hctl] at h; simp at h
    | activity_config_err i0 e h hcfg => rw [hctl] at h; simp at h
    | activity_fatal i0 e h hcfg => rw [hctl] at h; simp at h
  · intro s s' j hstep h'
    cases hstep with
    | signal sig => right; rw [apply_signal_control] at h'; exact h'
    | pause_exit_run i h hp hc =>
      left
      have hij : i = j := by simpa using h'
      rw [h, hij]
    | cancel_exit i h hc => simp at h'
    | begin_phase i h hc => simp at h'
    | pause_spin i h hp hc => rw [h] at h'; simp at h'
    | pause_exit_cancel i h hc => simp at h'
    | activity_ok i st h =>
      have h'' : nextControl i = Control.executing j := h'
      rw [nextControl] at h''
      split at h'' <;> simp at h''
    | activity_config_err i e h hcfg => simp at h'
    | activity_fatal i e h hcfg => simp at h'
    | wake i h hw => simp at h'
    | wait_timeout i h => simp at h'
  · intro s s' i hstep hctl
    cases hstep with
    | signal sig => right; left; rw [apply_signal_control, hctl]
    | cancel_exit i0 h hc => right; right; rfl
    | begin_phase i0 h hc =>
      rw [hctl] at h
      injection h with hi
      subst hi
      left; rfl
    | pause_spin i0 h hp hc => rw [hctl] at h; simp at h
    | pause_exit_cancel i0 h hc => rw [hctl] at h; simp at h
    | pause_exit_run i0 h hp hc => rw [hctl] at h; simp at h
    | activity_ok i0 st h => rw [hctl] at h; simp at h
    | activity_config_err i0 e h hcfg => rw [hctl] at h; simp at h
    | activity_fatal i0 e h hcfg => rw [hctl] at h; simp at h
    | wake i0 h hw => rw [hctl] at h; simp at h
    | wait_timeout i0 h => rw [hctl] at h; simp at h
  · intro s s' i hstep hctl
    cases hstep with
    | signal sig => left; rw [apply_signal_control, hctl]
    | pause_spin i0 h hp hc => left; exact hctl
    | pause_exit_cancel i0 h hc => right; right; rfl
    | pause_exit_run i0 h hp hc =>
      rw [hctl] at h
      injection h with hi
      subst hi
      right; left; rfl
    | cancel_exit i0 h hc => rw [hctl] at h; simp at h
    | begin_phase i0 h hc => rw [hctl] at h; simp at h
    | activity_ok i0 st h => rw [hctl] at h; simp at h
    | activity_config_err i0 e h hcfg => rw [hctl] at h; simp at h
    | activity_fatal i0 e h hcfg => rw [hctl] at h; simp at h
    | wake i0 h hw => rw [hctl] at h; simp at h
    | wait_timeout i0 h => rw [hctl] at h; simp at h

/-- Closed witness for the hypotheses of
`config_required_waits_and_retries`: an `ApplicationError` of type
`config_required` raised while phase 0 executes. -/
theorem config_required_waits_and_retries_witness :
    Step (⟨⟨some "intake", [], none, none, none, false, false, false⟩, false,
        .executing 0⟩ : WfState)
      { (⟨⟨some "intake", [], none, none, none, false, false, false⟩, false,
          .executing 0⟩ : WfState) with
        status := engine_mark_waiting
          (⟨some "intake", [], none, none, none, false, false, false⟩ : WorkflowStatus)
          "LLM provider config required",
        control := .waiting 0 } ∧
    (engine_mark_waiting
        (⟨some "intake", [], none, none, none, false, false, false⟩ : WorkflowStatus)
        "LLM provider config required").waiting_for_config = true :=
  have h := config_required_waits_and_retries.1
    (⟨⟨some "intake", [], none, none, none, false, false, false⟩, false,
        .executing 0⟩ : WfState)
    0 ⟨some "config_required", "missing credentials"⟩ rfl (by decide)
  ⟨h.1, h.2.1⟩

theorem step_ctlIdx_mono {s s' : WfState} (hb : phaseBound s.control)
    (hstep : Step s s') : ctlIdx s.control ≤ ctlIdx s'.control := by
  cases hstep with
  | signal sig => rw [apply_signal_control]
  | cancel_exit i h hc =>
    rw [h] at hb ⊢
    exact Nat.le_of_lt hb
  | begin_phase i h hc => rw [h]; exact Nat.le_refl _
  | pause_spin i h hp hc => exact Nat.le_refl _
  | pause_exit_cancel i h hc =>
    rw [h] at hb ⊢
    exact Nat.le_of_lt hb
  | pause_exit_run i h hp hc => rw [h]; exact Nat.le_refl _
  | activity_ok i st h =>
    rw [h] at hb ⊢
    show i ≤ ctlIdx (nextControl i)
    rw [nextControl]
    split
    · exact Nat.le_succ i
    · exact Nat.le_of_lt hb
  | activity_config_err i e h hcfg => rw [h]; exact Nat.le_refl _
  | activity_fatal i e h hcfg =>
    rw [h] at hb ⊢
    exact Nat.le_of_lt hb
  | wake i h hw => rw [h]; exact Nat.le_refl _
  | wait_timeout i h =>
    rw [h] at hb ⊢
    exact Nat.le_of_lt hb

/-- C7 (amended): the fixed gated phase sequence is `intake`, `prerecon`,
`recon`, `vuln`, `report`, and the orchestrator's control point walks it
monotonically in that order. -/
theorem phases_fixed_order :
    PHASES = ["intake", "prerecon", "recon", "vuln", "report"] ∧
    (∀ (s s' : WfState), phaseBound s.control → Step s s' →
      ctlIdx s.control ≤ ctlIdx s'.control) := by
  exact ⟨rfl, fun s s' hb hstep => step_ctlIdx_mono hb hstep⟩

/-- Closed witness for the hypotheses of `phases_fixed_order`. -/
theorem phases_fixed_order_witness :
    ctlIdx (initState "w/r/artifacts/index.json").control ≤
      ctlIdx (apply_signal (initState "w/r/artifacts/index.json") .pause).control :=
  phases_fixed_order.2 (initState "w/r/artifacts/index.json")
    (apply_signal (initState "w/r/artifacts/index.json") .pause)
    (show (0 : Nat) < PHASES.length by decide) (Step.signal _ .pause)

/-- C7 (counterexample): the run sequence the spec's overview names —
with a `network-discovery` phase and a `vulnerability-check` phase — is
not the phase sequence of the code. -/
theorem phases_claimed_sequence_false :
    PHASES ≠ ["intake", "prerecon", "network-discovery", "recon",
      "vulnerability-check", "report"] := by
  decide

end Adversa
